import Mathlib

/-!
Verification of the NeuraBalancer adaptive HTTP request router.

Shallow embedding of the Go sources:
* `backend/internal/loadbalancer/strategies_ml.go` — predictive (ML) strategy,
  circuit breaker, retry helper, cache key, admission rule;
* `backend/internal/loadbalancer/strategies.go` — weighted round-robin;
* `backend/internal/loadbalancer/balancer.go` — registry, dispatcher
  (`GetServer` / `ForwardRequest`), health checks;
* `backend/internal/metrics/collector.go` — collector (`RecordRequest`,
  `calculateSuccessRate`, three concatenated revisions);
* `backend/internal/api/handlers.go` and its alternate revision — the
  `POST /request` handler.

Network I/O, the database, and the remote scorer are modelled as oracle
parameters: each embedded function takes the outcome of its outbound calls
as an explicit argument and the theorems quantify over those outcomes.
Float32 scores are modelled as rationals; `maxFloat32` is the exact value
of `math.MaxFloat32`, the initial best score in the selection loop.
-/

namespace NeuraBalancer

/-- Largest finite float32 value, `math.MaxFloat32 = (2^24 - 1) * 2^104`,
used by `MLStrategy.SelectServer` as the initial `bestScore`. -/
def maxFloat32 : ℚ := 340282346638528859811704183484516925440

/-- Backend server as tracked by the load balancer
(`Server` struct in `balancer.go`), together with the per-server telemetry
readings (`Collector.GetCurrentCPUUsage` and friends) that
`MLStrategy.collectFeatures` fetches for it.  The telemetry values are
carried in the record because in the embedding the collector's gauges are
an oracle read at selection time. -/
structure Server where
  id : Int
  url : String
  alive : Bool
  weight : Int
  connections : Int
  capacity : Int
  cpuUsage : ℚ
  memoryUsage : ℚ
  errorRate : ℚ
  responseP95 : ℚ
  deriving DecidableEq, Repr

/-- Admission rule `Server.CanHandleRequest` from `strategies_ml.go`:
`s.Connections < s.Capacity*2` (2x over-provisioning). -/
def Server.canHandleRequest (s : Server) : Bool :=
  s.connections < s.capacity * 2

/-- Circuit breaker state (`CircuitBreaker` struct in `strategies_ml.go`):
a boolean flag and the time of the last failure.  Time is modelled in
seconds as a natural number. -/
structure CircuitBreaker where
  isOpen : Bool
  lastFailure : ℕ
  deriving DecidableEq, Repr

/-- Zero value of the Go `CircuitBreaker{}` struct: closed, epoch stamp. -/
def CircuitBreaker.init : CircuitBreaker := ⟨false, 0⟩

/-- `CircuitBreaker.IsOpen`: open iff the flag is set and less than 30
seconds have elapsed since the last failure
(`cb.isOpen && time.Since(cb.lastFailure) < 30*time.Second`). -/
def CircuitBreaker.isOpenAt (cb : CircuitBreaker) (now : ℕ) : Bool :=
  cb.isOpen && (now - cb.lastFailure < 30)

/-- `CircuitBreaker.RecordFailure`: sets the flag and stamps the time. -/
def CircuitBreaker.recordFailure (_cb : CircuitBreaker) (now : ℕ) : CircuitBreaker :=
  ⟨true, now⟩

/-- `CircuitBreaker.RecordSuccess`: clears the flag (the stamp is left). -/
def CircuitBreaker.recordSuccess (cb : CircuitBreaker) : CircuitBreaker :=
  ⟨false, cb.lastFailure⟩

/-- JSON value appearing in a feature object: integer or float field. -/
inductive JsonVal where
  | int (n : Int)
  | num (x : ℚ)
  deriving DecidableEq, Repr

/-- `MLStrategy.collectFeatures`: one feature object per server, in server
order, with exactly the fields written by the Go map literal. -/
def collectFeatures (servers : List Server) : List (List (String × JsonVal)) :=
  servers.map fun s =>
    [("server_id", .int s.id),
     ("cpu_usage", .num s.cpuUsage),
     ("memory_usage", .num s.memoryUsage),
     ("active_conns", .int s.connections),
     ("error_rate", .num s.errorRate),
     ("response_p95", .num s.responseP95),
     ("weight", .int s.weight),
     ("capacity", .int s.capacity)]

/-- Top-level keys of the payload `map[string]interface{}{"servers": features,
"ts": time.Now().Unix()}` posted to `<model>/predict`. -/
def scorerPayloadKeys : List String := ["servers", "ts"]

/-- Decoding of the scorer response by the client: the Go struct
`struct { Predictions []float32 json:"predictions" }` reads only the
`predictions` field; a missing field leaves the slice at its zero value
(empty), without a decode error. -/
def decodeScorerResponse (fields : List (String × List ℚ)) : List ℚ :=
  match fields.lookup "predictions" with
  | some v => v
  | none => []

/-- Helper `retry(attempts, delay, fn)` from `strategies_ml.go`, modelled
over the list of per-attempt outcomes: returns the first success, else the
error of the last attempt (or an error when no attempt runs). -/
def retry {α : Type} : List (Except Unit α) → Except Unit α
  | [] => .error ()
  | a :: rest =>
    match a with
    | .ok v => .ok v
    | .error e => match rest with
      | [] => .error e
      | _ => retry rest

/-- Selection loop of `MLStrategy.SelectServer`: fold over the predictions
paired with the servers, keeping the lowest score whose server passes the
admission rule; `bestScore` starts at `math.MaxFloat32`, `bestServer` at
nil. -/
def selectBestAux (acc : ℚ × Option Server) :
    List (ℚ × Server) → ℚ × Option Server
  | [] => acc
  | (p, srv) :: rest =>
    selectBestAux (if p < acc.1 ∧ srv.canHandleRequest then (p, some srv) else acc) rest

/-- Result of the argmin-with-admission loop on a full prediction vector. -/
def selectBest (servers : List Server) (preds : List ℚ) : Option Server :=
  (selectBestAux (maxFloat32, none) (preds.zip servers)).2

/-- Observable result of one `MLStrategy.SelectServer` execution. -/
structure MLResult where
  choice : Option Server
  scorerCalled : Bool
  breakerEvent : Option Bool
  cacheInsert : Option (List ℚ)
  deriving DecidableEq, Repr

/-- Scorer-path tail of `MLStrategy.SelectServer`: retry the model call,
fall back (recording a breaker failure) on final error or length mismatch,
otherwise cache, record success, and pick the admissible argmin (falling
back when no candidate is admissible). -/
def mlScorerPath (cb : CircuitBreaker) (now : ℕ)
    (scorer : Except Unit (List ℚ)) (servers : List Server)
    (fallback : List Server → Option Server) : MLResult × CircuitBreaker :=
  match scorer with
  | .error _ => (⟨fallback servers, true, some false, none⟩, cb.recordFailure now)
  | .ok preds =>
    if preds.length ≠ servers.length then
      (⟨fallback servers, true, some false, none⟩, cb.recordFailure now)
    else
      match selectBest servers preds with
      | some s => (⟨some s, true, some true, some preds⟩, cb.recordSuccess)
      | none => (⟨fallback servers, true, some true, some preds⟩, cb.recordSuccess)

/-- `MLStrategy.SelectServer`.  `cached` is the LRU lookup outcome for the
cache key of the current candidate set; `scorer` is the final outcome of
the retried model call (`retry` applied to the attempt outcomes).  Returns
the observable result and the circuit-breaker state after the call. -/
def mlSelect (cb : CircuitBreaker) (now : ℕ)
    (cached : Option (List ℚ)) (scorer : Except Unit (List ℚ))
    (servers : List Server)
    (fallback : List Server → Option Server) : MLResult × CircuitBreaker :=
  if cb.isOpenAt now then
    (⟨fallback servers, false, none, none⟩, cb)
  else
    match cached with
    | some preds =>
      if preds.length = servers.length then
        match selectBest servers preds with
        | some s => (⟨some s, false, none, none⟩, cb)
        | none => mlScorerPath cb now scorer servers fallback
      else mlScorerPath cb now scorer servers fallback
    | none => mlScorerPath cb now scorer servers fallback

/-- Inputs of one predictive selection in a trace: the clock reading, the
cache lookup outcome, and the final scorer outcome for that selection. -/
structure SelEvent where
  now : ℕ
  cached : Option (List ℚ)
  scorer : Except Unit (List ℚ)
  deriving Repr

/-- Circuit-breaker state before the `k`-th selection of a trace: fold of
`mlSelect` over the first `k` events. -/
def cbAt (servers : List Server) (fallback : List Server → Option Server)
    (cb0 : CircuitBreaker) (events : List SelEvent) (k : ℕ) : CircuitBreaker :=
  (events.take k).foldl
    (fun cb e => (mlSelect cb e.now e.cached e.scorer servers fallback).2) cb0

/-- Result and post-state of the `k`-th selection of a trace started from
the zero-valued breaker, when that selection processes event `e`. -/
def mlRunStep (servers : List Server) (fallback : List Server → Option Server)
    (events : List SelEvent) (k : ℕ) (e : SelEvent) : MLResult × CircuitBreaker :=
  mlSelect (cbAt servers fallback .init events k) e.now e.cached e.scorer servers fallback

/-! Weighted round-robin (`strategies.go`).  The strategy keys its state by
server URL; `serverWeights` is initialised on first use to a hard-coded
table.  `currentWeights` is a Go map read with zero default, modelled as a
total function from strings to integers. -/

/-- Hard-coded weight table installed by the first call to
`WeightedRoundRobinStrategy.SelectServer`. -/
def wrrTable : List (String × Int) :=
  [("http://server1", 3), ("http://server2", 1), ("http://server3", 2)]

/-- Weight of a server in the table, zero when absent (Go map default). -/
def tableWeight (server : String) : Int :=
  (wrrTable.lookup server).getD 0

/-- Helper `sumWeights` from `strategies.go`: total of all table weights. -/
def sumWeights (weights : List (String × Int)) : Int :=
  weights.foldl (fun total w => total + w.2) 0

/-- Map update `w.currentWeights[key] = v`. -/
def updateCW (cw : String → Int) (key : String) (v : Int) : String → Int :=
  fun s => if s = key then v else cw s

/-- Phase one of a WRR step: `w.currentWeights[server] += weight` for every
table entry (reads of untouched keys are unchanged; touched keys gain
their table weight). -/
def wrrAddWeights (cw : String → Int) : String → Int :=
  fun s => cw s + tableWeight s

/-- Phase two: scan the candidate slice keeping the server with the
strictly highest current weight (ties keep the earlier candidate). -/
def wrrPickMax (cw : String → Int) (first : String) (rest : List String) : String :=
  rest.foldl (fun sel s => if cw s > cw sel then s else sel) first

/-- One `WeightedRoundRobinStrategy.SelectServer` call: add weights, pick
the maximum, subtract the total weight from the winner.  `none` on an
empty candidate list (the Go code would index out of range). -/
def wrrStep (cw : String → Int) : List String → Option (String × (String → Int))
  | [] => none
  | s0 :: rest =>
    let cw1 := wrrAddWeights cw
    let sel := wrrPickMax cw1 s0 rest
    some (sel, updateCW cw1 sel (cw1 sel - sumWeights wrrTable))

/-- Iterated WRR selection: the sequence of the first `n` choices and the
final current-weight state. -/
def wrrRun (cw : String → Int) (servers : List String) :
    ℕ → List String × (String → Int)
  | 0 => ([], cw)
  | n+1 =>
    match wrrStep cw servers with
    | none => ([], cw)
    | some (sel, cw') =>
      let rest := wrrRun cw' servers n
      (sel :: rest.1, rest.2)

/-- The three candidates matching the hard-coded table, in slice order. -/
def wrrCandidates : List String :=
  ["http://server1", "http://server2", "http://server3"]

/-- Choice sequence of the strategy from its initial (empty-map) state on
the three table candidates. -/
def wrrSeq (n : ℕ) : List String :=
  (wrrRun (fun _ => 0) wrrCandidates n).1

/-! Dispatcher (`balancer.go`).  `pick` is the configured strategy,
`buildOk` the outcome of `http.NewRequest`, `transport` the outcome of
`http.DefaultClient.Do` (an HTTP status code when a response arrives). -/

/-- `LoadBalancer.GetServer`: filter the alive servers, let the strategy
pick one, and reserve a slot on it (`selected.Connections++`).  `none`
covers both error returns (no healthy server / strategy returned nil). -/
def getServer (servers : List Server)
    (pick : List Server → Option Server) : Option Server :=
  match servers.filter (·.alive) with
  | [] => none
  | healthy =>
    match pick healthy with
    | none => none
    | some s => some { s with connections := s.connections + 1 }

/-- Observable outcome of one `LoadBalancer.ForwardRequest` call: the HTTP
status written to the caller, the `Collector.RecordRequest` calls issued
(server id and success flag), and the final state of the chosen server. -/
structure FwdResult where
  status : ℕ
  records : List (Int × Bool)
  server : Option Server
  deriving DecidableEq, Repr

/-- `LoadBalancer.ForwardRequest`: select and reserve, forward, record the
deferred outcome, release the reservation.  On selection failure: 503 with
the zero-valued server id.  On request-construction failure: 500.  On
transport error: mark the server not alive and answer 502.  On an HTTP
response: record `success = status < 500` and relay the status. -/
def forwardRequest (servers : List Server) (pick : List Server → Option Server)
    (buildOk : Bool) (transport : Except Unit ℕ) : FwdResult :=
  match getServer servers pick with
  | none => ⟨503, [(0, false)], none⟩
  | some server =>
    if buildOk then
      match transport with
      | .error _ =>
        ⟨502, [(server.id, false)],
          some { server with alive := false, connections := server.connections - 1 }⟩
      | .ok code =>
        ⟨code, [(server.id, decide (code < 500))],
          some { server with connections := server.connections - 1 }⟩
    else
      ⟨500, [(server.id, false)],
        some { server with connections := server.connections - 1 }⟩

/-! Interleavings of reservations, releases and prober updates on one
backend, for the in-flight counter invariant.  `reserve` is the increment
in `GetServer`, `release` the deferred decrement in `ForwardRequest`, and
`probe r` one health-check verdict applied by `startHealthChecks` (which
resets `Connections` to 0 on a not-alive to alive transition). -/

inductive LBOp where
  | reserve
  | release
  | probe (result : Bool)
  deriving DecidableEq, Repr

/-- Liveness flag and in-flight counter of one backend. -/
structure BackendState where
  alive : Bool
  connections : Int
  deriving DecidableEq, Repr

/-- Effect of one operation on a backend's state. -/
def lbStep (s : BackendState) : LBOp → BackendState
  | .reserve => { s with connections := s.connections + 1 }
  | .release => { s with connections := s.connections - 1 }
  | .probe r =>
    if !s.alive && r then { alive := r, connections := 0 }
    else { s with alive := r }

/-- Fold of `lbStep` over a trace of operations. -/
def lbRun (s : BackendState) : List LBOp → BackendState
  | [] => s
  | op :: rest => lbRun (lbStep s op) rest

/-- An operation is a revival when it is a successful probe of a backend
currently marked not alive (the case where the counter is reset). -/
def isRevival (s : BackendState) : LBOp → Bool
  | .probe r => !s.alive && r
  | _ => false

/-- A trace is revival-free from `s` when no step along it is a revival. -/
def noRevival (s : BackendState) : List LBOp → Bool
  | [] => true
  | op :: rest => !isRevival s op && noRevival (lbStep s op) rest

/-! Collector (`collector.go`).  Three concatenated revisions share the
aggregate Prometheus counters; they differ in the per-server database
work and in the empty-window convention of `calculateSuccessRate`. -/

/-- Aggregate counters, histogram observations, and the server ids for
which per-server database writes were performed. -/
structure CollectorState where
  total : ℕ
  successful : ℕ
  failed : ℕ
  responseTimeObs : List ℚ
  dbWrites : List Int
  deriving DecidableEq, Repr

/-- `Collector.RecordRequest`: always bump the aggregate counters and the
response-time histogram; then, only for a positive server id that exists
in the database, perform the per-server writes (request log, load update,
metrics insert), modelled as one id appended to `dbWrites`. -/
def recordRequest (c : CollectorState) (serverID : Int) (success : Bool)
    (duration : ℚ) (serverKnown : Bool) : CollectorState :=
  let c1 : CollectorState :=
    { c with
      total := c.total + 1,
      successful := c.successful + (if success then 1 else 0),
      failed := c.failed + (if success then 0 else 1),
      responseTimeObs := c.responseTimeObs ++ [duration] }
  if serverID ≤ 0 then c1
  else if serverKnown then { c1 with dbWrites := c1.dbWrites ++ [serverID] }
  else c1

/-- Outcome samples for one server: success flag and timestamp in
seconds.  The window filter keeps samples with
`timestamp > now - windowSec`. -/
def windowSamples (outcomes : List (Bool × ℕ)) (now windowSec : ℕ) :
    List (Bool × ℕ) :=
  outcomes.filter fun o => now < o.2 + windowSec

/-- `calculateSuccessRate` (revision at `collector.go:262`): 5-minute
window over the attempts stream; empty window gives 1.0. -/
def calculateSuccessRate (outcomes : List (Bool × ℕ)) (now : ℕ) : ℚ :=
  let window := windowSamples outcomes now 300
  if window.length = 0 then 1
  else ((window.filter (·.1)).length : ℚ) / window.length

/-- `calculateSuccessRate` (revision at `collector.go:536`): 15-minute
window over the requests stream; empty window gives 1.0. -/
def calculateSuccessRate15m (outcomes : List (Bool × ℕ)) (now : ℕ) : ℚ :=
  let window := windowSamples outcomes now 900
  if window.length = 0 then 1
  else ((window.filter (·.1)).length : ℚ) / window.length

/-- `calculateSuccessRate` (revision at `collector.go:763`): reduced
5-minute window; empty window gives 0.0 (comment in source: no data means
0% success rate). -/
def calculateSuccessRateReduced (outcomes : List (Bool × ℕ)) (now : ℕ) : ℚ :=
  let window := windowSamples outcomes now 300
  if window.length = 0 then 0
  else ((window.filter (·.1)).length : ℚ) / window.length

/-! Public `POST /request` handler (`handlers.go`, bound in `router.go`,
with the alternate revision that validates `server_id`). -/

/-- Truth of `err == nil` for a forward outcome. -/
def transportOk : Except Unit ℕ → Bool
  | .ok _ => true
  | .error _ => false

/-- Observable outcome of one `POST /request` call: response status, the
ids of the backends the body was forwarded to, and the collector records
issued (id tag and success flag). -/
structure HandleResult where
  status : ℕ
  forwardedTo : List Int
  records : List (Int × Bool)
  deriving DecidableEq, Repr

/-- `Handler.HandleRequest` (`handlers.go:32`): read the body, collect all
alive servers, 503 when none, otherwise post the body to every one of
them in parallel and record one outcome per server
(`success = (err == nil)`). -/
def handleRequest (servers : List Server)
    (transport : Int → Except Unit ℕ) : HandleResult :=
  match servers.filter (·.alive) with
  | [] => ⟨503, [], []⟩
  | healthy =>
    ⟨200, healthy.map (·.id), healthy.map fun s => (s.id, transportOk (transport s.id))⟩

/-- `Handler.HandleRequest` (alternate revision, `part_003:36`): demand a
`server_id` query parameter (400 when missing, 400 when not an integer),
then broadcast exactly as above, tagging every record with the given
`server_id` instead of the target's id.  `serverIdParam = none` models a
missing parameter, `some none` an unparsable one. -/
def handleRequestTagged (serverIdParam : Option (Option Int))
    (servers : List Server) (transport : Int → Except Unit ℕ) : HandleResult :=
  match serverIdParam with
  | none => ⟨400, [], []⟩
  | some none => ⟨400, [], []⟩
  | some (some sid) =>
    match servers.filter (·.alive) with
    | [] => ⟨503, [], [(sid, false)]⟩
    | healthy =>
      ⟨200, healthy.map (·.id), healthy.map fun s => (sid, transportOk (transport s.id))⟩

/-! Theorems. -/

/-- C8 (counterexample).  The claim states that the success-rate
computation returns exactly 1.0 on an empty outcome window, but the
revision of `calculateSuccessRate` at `collector.go:763` (one of the two
locations the claim cites) returns 0.0 when the window is empty. -/
theorem C8_counterexample :
    calculateSuccessRateReduced [] 0 = 0 ∧ (0 : ℚ) ≠ 1 := by
  exact ⟨rfl, by norm_num⟩

/-- C8 (amended).  On an empty window the success-rate revisions at
`collector.go:262` (5-minute attempts window) and `collector.go:536`
(15-minute requests window) return exactly 1.0, while the final revision
at `collector.go:763` (reduced 5-minute window) returns 0.0. -/
theorem C8_empty_window_rates (outcomes : List (Bool × ℕ)) (now : ℕ)
    (h5 : windowSamples outcomes now 300 = [])
    (h15 : windowSamples outcomes now 900 = []) :
    calculateSuccessRate outcomes now = 1
      ∧ calculateSuccessRate15m outcomes now = 1
      ∧ calculateSuccessRateReduced outcomes now = 0 := by
  refine ⟨?_, ?_, ?_⟩ <;>
    simp [calculateSuccessRate, calculateSuccessRate15m,
      calculateSuccessRateReduced, h5, h15]

/-- C8 witness: concrete empty-window instance. -/
theorem C8_empty_window_rates_witness :
    calculateSuccessRate [] 0 = 1
      ∧ calculateSuccessRate15m [] 0 = 1
      ∧ calculateSuccessRateReduced [] 0 = 0 :=
  C8_empty_window_rates [] 0 rfl rfl

/-- C9 (counterexample).  The claim states the client serialises exactly
six feature fields per candidate and parses the response as
`{scores: [...]}`.  In `collectFeatures` each candidate object carries
eight fields — the extra `server_id` and `weight` — and the client's
response struct decodes the `predictions` field, so a `{scores: [...]}`
body decodes to the empty vector. -/
theorem C9_counterexample :
    (collectFeatures [⟨1, "http://server1", true, 1, 0, 1, 0, 0, 0, 0⟩]).map
        (fun f => f.map Prod.fst)
      = [["server_id", "cpu_usage", "memory_usage", "active_conns",
          "error_rate", "response_p95", "weight", "capacity"]]
    ∧ ["server_id", "cpu_usage", "memory_usage", "active_conns",
        "error_rate", "response_p95", "weight", "capacity"]
      ≠ ["cpu_usage", "memory_usage", "active_conns",
          "error_rate", "response_p95", "capacity"]
    ∧ decodeScorerResponse [("scores", [(1 : ℚ) / 2])] = [] := by
  exact ⟨rfl, by decide, rfl⟩

/-- C9 (amended).  The client serialises per candidate exactly the eight
fields `server_id, cpu_usage, memory_usage, active_conns, error_rate,
response_p95, weight, capacity` in request-array order (inside a payload
whose top-level keys are `servers` and `ts`), parses the response field
`predictions` (a response carrying only `scores` decodes to the empty
vector), and accepts the decoded vector only when its length equals the
number of candidates sent — otherwise the fallback choice is returned and
a breaker failure is recorded. -/
theorem C9_scorer_contract (servers : List Server) (preds : List ℚ)
    (cb : CircuitBreaker) (now : ℕ) (fallback : List Server → Option Server)
    (hopen : cb.isOpenAt now = false) (hlen : preds.length ≠ servers.length) :
    (collectFeatures servers).length = servers.length
    ∧ (∀ f ∈ collectFeatures servers, f.map Prod.fst
        = ["server_id", "cpu_usage", "memory_usage", "active_conns",
            "error_rate", "response_p95", "weight", "capacity"])
    ∧ scorerPayloadKeys = ["servers", "ts"]
    ∧ (∀ v, decodeScorerResponse [("predictions", v)] = v)
    ∧ (∀ v, decodeScorerResponse [("scores", v)] = [])
    ∧ (mlSelect cb now none (.ok preds) servers fallback).1.choice = fallback servers
    ∧ (mlSelect cb now none (.ok preds) servers fallback).1.breakerEvent = some false := by
  refine ⟨by simp [collectFeatures], ?_, rfl, fun v => rfl, fun v => rfl, ?_, ?_⟩
  · intro f hf
    simp only [collectFeatures, List.mem_map] at hf
    obtain ⟨s, _, rfl⟩ := hf
    rfl
  · simp [mlSelect, hopen, mlScorerPath, hlen]
  · simp [mlSelect, hopen, mlScorerPath, hlen]

/-- C9 witness: one concrete candidate and a one-element score vector of
mismatched length against zero candidates. -/
theorem C9_scorer_contract_witness :
    (mlSelect .init 0 none (.ok [(1 : ℚ) / 2])
        [⟨1, "http://server1", true, 1, 0, 1, 0, 0, 0, 0⟩,
         ⟨2, "http://server2", true, 1, 0, 1, 0, 0, 0, 0⟩]
        List.head?).1.choice
      = List.head? [⟨1, "http://server1", true, 1, 0, 1, 0, 0, 0, 0⟩,
          ⟨2, "http://server2", true, 1, 0, 1, 0, 0, 0, 0⟩] :=
  (C9_scorer_contract _ _ _ _ _ (by decide) (by decide)).2.2.2.2.2.1

/-- C10 (counterexample).  The claim states that when the outbound request
cannot be constructed the outcome record carries an unset server id (0).
In `ForwardRequest` the local `serverID` has already been set to the
selected backend's id before `http.NewRequest` runs, so the record carries
that id — here 7, not 0. -/
theorem C10_counterexample :
    (forwardRequest [⟨7, "http://server1", true, 1, 0, 1, 0, 0, 0, 0⟩]
        List.head? false (.ok 200)).records = [(7, false)]
    ∧ ((7 : Int) ≠ 0) := by
  exact ⟨rfl, by decide⟩

/-- C10 (amended).  Every `ForwardRequest` call issues exactly one
collector record through the deferred call.  When no backend can be
selected the record carries server id 0 and `success = false` with a 503
answer; when the outbound request cannot be constructed it carries the
selected backend's id (not 0) and `success = false` with a 500 answer.
For any record whose server id is ≤ 0 the collector still increments the
aggregate total/failed counters and observes the latency histogram but
performs no per-server database write. -/
theorem C10_single_record (servers : List Server)
    (pick : List Server → Option Server) (buildOk : Bool)
    (transport : Except Unit ℕ) (c : CollectorState) (duration : ℚ)
    (serverKnown : Bool) :
    (forwardRequest servers pick buildOk transport).records.length = 1
    ∧ (getServer servers pick = none →
        forwardRequest servers pick buildOk transport = ⟨503, [(0, false)], none⟩)
    ∧ (∀ srv, getServer servers pick = some srv → buildOk = false →
        (forwardRequest servers pick buildOk transport).records = [(srv.id, false)]
        ∧ (forwardRequest servers pick buildOk transport).status = 500)
    ∧ (∀ sid success, sid ≤ 0 →
        (recordRequest c sid success duration serverKnown).dbWrites = c.dbWrites
        ∧ (recordRequest c sid success duration serverKnown).total = c.total + 1
        ∧ (recordRequest c sid success duration serverKnown).responseTimeObs
            = c.responseTimeObs ++ [duration]
        ∧ (success = false →
            (recordRequest c sid success duration serverKnown).failed = c.failed + 1)) := by
  refine ⟨?_, ?_, ?_, ?_⟩
  · rcases h : getServer servers pick with _ | srv <;>
      rcases buildOk <;> rcases transport with _ | code <;>
      simp [forwardRequest, h]
  · intro h
    rcases buildOk <;> rcases transport with _ | code <;> simp [forwardRequest, h]
  · intro srv h hb
    subst hb
    exact ⟨by simp [forwardRequest, h], by simp [forwardRequest, h]⟩
  · intro sid success hsid
    rcases success <;> simp [recordRequest, hsid, decide_eq_true_eq]

/-- C10 witness: selection failure on an empty pool yields the zero-id
failure record and a 503. -/
theorem C10_single_record_witness :
    forwardRequest [] List.head? true (.ok 200) = ⟨503, [(0, false)], none⟩ :=
  (C10_single_record [] List.head? true (.ok 200) ⟨0, 0, 0, [], []⟩ 1 true).2.1 rfl

/-- C1 (counterexample).  The claim states that `POST /request` forwards
to exactly one strategy-selected backend and that `server_id` is optional
with no effect on acceptance.  The bound handler (`handlers.go:32`,
`router.go:30`) broadcasts to every alive backend — two here — and the
alternate revision (`part_003:36`) answers 400 when `server_id` is
missing. -/
theorem C1_counterexample :
    (handleRequest
        [⟨1, "http://server1", true, 1, 0, 1, 0, 0, 0, 0⟩,
         ⟨2, "http://server2", true, 1, 0, 1, 0, 0, 0, 0⟩]
        (fun _ => .ok 200)).forwardedTo = [1, 2]
    ∧ ([1, 2] : List Int).length ≠ 1
    ∧ (handleRequestTagged none
        [⟨1, "http://server1", true, 1, 0, 1, 0, 0, 0, 0⟩]
        (fun _ => .ok 200)).status = 400 := by
  exact ⟨rfl, by decide, rfl⟩

/-- C1 (amended).  `POST /request` is a broadcast: both revisions of the
handler forward the body to every alive backend (503 when none is alive),
recording one outcome per target.  In the alternate revision the
`server_id` query parameter is required — a missing or unparsable value is
rejected with 400 — and it is used only as the correlation tag of the
outcome records, never to choose the target set. -/
theorem C1_request_broadcast (servers : List Server)
    (transport : Int → Except Unit ℕ) (sid : Int)
    (hne : servers.filter (·.alive) ≠ []) :
    (handleRequest servers transport).forwardedTo
        = (servers.filter (·.alive)).map (·.id)
    ∧ (handleRequest servers transport).status = 200
    ∧ (handleRequestTagged (some (some sid)) servers transport).forwardedTo
        = (servers.filter (·.alive)).map (·.id)
    ∧ (handleRequestTagged (some (some sid)) servers transport).records
        = (servers.filter (·.alive)).map (fun s => (sid, transportOk (transport s.id)))
    ∧ (handleRequestTagged none servers transport).status = 400
    ∧ (handleRequestTagged (some none) servers transport).status = 400 := by
  rcases hfil : servers.filter (·.alive) with _ | ⟨a, l⟩
  · exact absurd hfil hne
  · exact ⟨by simp [handleRequest, hfil], by simp [handleRequest, hfil],
      by simp [handleRequestTagged, hfil], by simp [handleRequestTagged, hfil],
      rfl, rfl⟩

/-- C1 witness: one alive backend. -/
theorem C1_request_broadcast_witness :
    (handleRequest [⟨1, "http://server1", true, 1, 0, 1, 0, 0, 0, 0⟩]
        (fun _ => .ok 200)).forwardedTo
      = (([⟨1, "http://server1", true, 1, 0, 1, 0, 0, 0, 0⟩] : List Server).filter
          (·.alive)).map (·.id) :=
  (C1_request_broadcast _ _ 0 (by decide)).1

/-- C5: every dispatch whose forward dies in a transport error marks the
chosen backend not alive, records exactly one outcome with
`success = false`, answers 502, and leaves the in-flight counter at its
pre-request value; every dispatch that receives an HTTP response records
`success = (status < 500)` and relays the status, also restoring the
counter.  `s0` is the strategy's pick (pre-reservation state). -/
theorem C5_dispatch_outcomes (servers : List Server)
    (pick : List Server → Option Server) (s0 : Server)
    (hne : servers.filter (·.alive) ≠ [])
    (hpick : pick (servers.filter (·.alive)) = some s0) :
    forwardRequest servers pick true (.error ())
        = ⟨502, [(s0.id, false)], some { s0 with alive := false }⟩
    ∧ ∀ code, forwardRequest servers pick true (.ok code)
        = ⟨code, [(s0.id, decide (code < 500))], some s0⟩ := by
  rcases hfil : servers.filter (·.alive) with _ | ⟨a, l⟩
  · exact absurd hfil hne
  · rw [hfil] at hpick
    have hconn : s0.connections + 1 - 1 = s0.connections := by ring
    constructor
    · simp [forwardRequest, getServer, hfil, hpick, hconn]
    · intro code
      simp [forwardRequest, getServer, hfil, hpick, hconn]

/-- C5 witness: concrete backend, both a transport error and a 504
response. -/
theorem C5_dispatch_outcomes_witness :
    forwardRequest [⟨3, "http://server1", true, 1, 2, 4, 0, 0, 0, 0⟩]
        List.head? true (.error ())
      = ⟨502, [(3, false)],
          some ⟨3, "http://server1", false, 1, 2, 4, 0, 0, 0, 0⟩⟩
    ∧ forwardRequest [⟨3, "http://server1", true, 1, 2, 4, 0, 0, 0, 0⟩]
        List.head? true (.ok 504)
      = ⟨504, [(3, false)],
          some ⟨3, "http://server1", true, 1, 2, 4, 0, 0, 0, 0⟩⟩ := by
  have h := C5_dispatch_outcomes
    [⟨3, "http://server1", true, 1, 2, 4, 0, 0, 0, 0⟩] List.head?
    ⟨3, "http://server1", true, 1, 2, 4, 0, 0, 0, 0⟩ (by decide) rfl
  exact ⟨h.1, h.2 504⟩

/-- C6 (counterexample).  The claim asserts the in-flight counter stays
≥ 0 under every interleaving of dispatches, releases and prober updates.
`startHealthChecks` resets `Connections` to 0 on a not-alive → alive
transition, so reserving, flapping the backend down and up, and then
running the deferred release drives the counter to −1. -/
theorem C6_counterexample :
    (lbRun ⟨true, 0⟩ [.reserve, .probe false, .probe true, .release]).connections = -1
    ∧ (lbRun ⟨true, 0⟩ [.reserve, .probe false, .probe true, .release]).connections < 0 := by
  exact ⟨rfl, by decide⟩

/-- Reserve/release balance of a prefix, as integers. -/
theorem lbRun_balance (ops : List LBOp) (s : BackendState)
    (hnr : noRevival s ops = true) :
    (lbRun s ops).connections
      = s.connections + (ops.count .reserve : ℤ) - (ops.count .release : ℤ) := by
  induction ops generalizing s with
  | nil => simp [lbRun]
  | cons op rest ih =>
    simp only [noRevival, Bool.and_eq_true, Bool.not_eq_true'] at hnr
    obtain ⟨hop, hrest⟩ := hnr
    have h := ih (lbStep s op) hrest
    rcases op with _ | _ | r
    · simp only [lbRun, List.count_cons]
      rw [h]
      have e1 : (LBOp.reserve == LBOp.reserve) = true := rfl
      have e2 : (LBOp.reserve == LBOp.release) = false := rfl
      simp only [lbStep, e1, e2, Bool.false_eq_true, if_true, if_false]
      push_cast
      ring
    · simp only [lbRun, List.count_cons]
      rw [h]
      have e1 : (LBOp.release == LBOp.reserve) = false := rfl
      have e2 : (LBOp.release == LBOp.release) = true := rfl
      simp only [lbStep, e1, e2, Bool.false_eq_true, if_true, if_false]
      push_cast
      ring
    · simp only [isRevival] at hop
      simp only [lbRun, List.count_cons]
      rw [h]
      simp only [lbStep, hop, Bool.false_eq_true, if_false]
      have h1 : (LBOp.probe r == LBOp.reserve) = false := by rfl
      have h2 : (LBOp.probe r == LBOp.release) = false := by rfl
      simp [h1, h2]

/-- Prefixes of a revival-free trace are revival-free. -/
theorem noRevival_take (ops : List LBOp) (s : BackendState) (n : ℕ)
    (hnr : noRevival s ops = true) : noRevival s (ops.take n) = true := by
  induction ops generalizing s n with
  | nil => simp [List.take_nil, noRevival]
  | cons op rest ih =>
    rcases n with _ | m
    · simp [noRevival]
    · simp only [noRevival, Bool.and_eq_true] at hnr ⊢
      exact ⟨hnr.1, ih (lbStep s op) m hnr.2⟩

/-- C6 (amended).  As long as no prober revival reset interleaves between
a reservation and its release, the in-flight counter at every point of
the trace equals its initial value plus the reservations taken and not
yet released, and it stays ≥ 0 whenever releases never outrun
reservations; but a revival reset interleaved between reserve and release
violates the non-negativity claim (see the counterexample). -/
theorem C6_inflight_no_revival (ops : List LBOp) (s0 : BackendState)
    (hnr : noRevival s0 ops = true) :
    (∀ n, (lbRun s0 (ops.take n)).connections
        = s0.connections + ((ops.take n).count .reserve : ℤ)
          - ((ops.take n).count .release : ℤ))
    ∧ ((0 ≤ s0.connections
        ∧ ∀ n, n ≤ ops.length →
            ((ops.take n).count .release : ℤ)
              ≤ s0.connections + ((ops.take n).count .reserve : ℤ)) →
        ∀ n, 0 ≤ (lbRun s0 (ops.take n)).connections) := by
  have hbal : ∀ n, (lbRun s0 (ops.take n)).connections
      = s0.connections + ((ops.take n).count .reserve : ℤ)
        - ((ops.take n).count .release : ℤ) :=
    fun n => lbRun_balance (ops.take n) s0 (noRevival_take ops s0 n hnr)
  refine ⟨hbal, ?_⟩
  rintro ⟨h0, hpref⟩ n
  rw [hbal n]
  rcases le_or_lt n ops.length with hle | hgt
  · have := hpref n hle
    omega
  · have htake : ops.take n = ops := List.take_of_length_le hgt.le
    have := hpref ops.length le_rfl
    rw [List.take_length] at this
    rw [htake]
    omega

/-- C6 witness: a revival-free trace with one full reserve/release pair
and two probes keeps the counter non-negative. -/
theorem C6_inflight_no_revival_witness :
    0 ≤ (lbRun ⟨true, 0⟩
        ([.reserve, .probe true, .release, .probe false].take 4)).connections :=
  (C6_inflight_no_revival [.reserve, .probe true, .release, .probe false]
    ⟨true, 0⟩ (by decide)).2 ⟨by decide, by decide⟩ 4

/-- Retry over attempts that all fail yields the final error. -/
theorem retry_all_error {α : Type} (attempts : List (Except Unit α))
    (hne : attempts ≠ []) (hfail : ∀ a ∈ attempts, a = .error ()) :
    retry attempts = .error () := by
  induction attempts with
  | nil => exact absurd rfl hne
  | cons a rest ih =>
    have ha : a = .error () := hfail a (List.mem_cons_self a rest)
    subst ha
    rcases rest with _ | ⟨b, rest'⟩
    · rfl
    · have : retry (b :: rest') = .error () :=
        ih (by simp) (fun x hx => hfail x (List.mem_cons_of_mem _ hx))
      simpa [retry] using this

/-- C4: when the retried scorer call finally fails after its (up to 3)
attempts, or the decoded score vector's length differs from the candidate
count, the predictive strategy records a failure on the circuit breaker
(opening it with the current timestamp) and returns the fallback
strategy's choice; the result is always an ordinary selection, so scorer
unavailability is never surfaced to the caller as an error.  The
`mlScorerPath` statement covers every route into the scorer (cache miss,
invalid cache entry, or exhausted cache hit). -/
theorem C4_scorer_failure_fallback (servers : List Server)
    (cb : CircuitBreaker) (now : ℕ) (fallback : List Server → Option Server)
    (attempts : List (Except Unit (List ℚ))) (preds : List ℚ)
    (hopen : cb.isOpenAt now = false) (hatt : attempts.length = 3)
    (hfail : ∀ a ∈ attempts, a = .error ()) :
    retry attempts = .error ()
    ∧ mlScorerPath cb now (retry attempts) servers fallback
        = (⟨fallback servers, true, some false, none⟩, ⟨true, now⟩)
    ∧ mlSelect cb now none (retry attempts) servers fallback
        = (⟨fallback servers, true, some false, none⟩, ⟨true, now⟩)
    ∧ (preds.length ≠ servers.length →
        mlSelect cb now none (.ok preds) servers fallback
          = (⟨fallback servers, true, some false, none⟩, ⟨true, now⟩)) := by
  have hne : attempts ≠ [] := by
    intro h
    rw [h] at hatt
    exact absurd hatt (by decide)
  have hr : retry attempts = .error () := retry_all_error attempts hne hfail
  refine ⟨hr, ?_, ?_, ?_⟩
  · rw [hr]
    rfl
  · rw [hr]
    simp [mlSelect, hopen, mlScorerPath, CircuitBreaker.recordFailure]
  · intro hlen
    simp [mlSelect, hopen, mlScorerPath, hlen, CircuitBreaker.recordFailure]

/-- C4 witness: three timed-out attempts against two candidates, and a
one-score vector against the same two candidates. -/
theorem C4_scorer_failure_fallback_witness :
    mlSelect .init 5 none
        (retry [.error (), .error (), .error ()])
        [⟨1, "http://server1", true, 1, 0, 1, 0, 0, 0, 0⟩,
         ⟨2, "http://server2", true, 1, 0, 1, 0, 0, 0, 0⟩]
        List.head?
      = (⟨List.head? [⟨1, "http://server1", true, 1, 0, 1, 0, 0, 0, 0⟩,
            ⟨2, "http://server2", true, 1, 0, 1, 0, 0, 0, 0⟩],
          true, some false, none⟩, ⟨true, 5⟩) :=
  (C4_scorer_failure_fallback _ .init 5 List.head?
    [.error (), .error (), .error ()] [] (by decide) rfl
    (by
      intro a ha
      simp only [List.mem_cons, List.not_mem_nil, or_false] at ha
      rcases ha with h | h | h <;> exact h)).2.2.1

/-- Selection-loop bound: the running best score never increases and ends
at or below the score of every admissible pair scanned. -/
theorem selectBestAux_le (l : List (ℚ × Server)) (acc : ℚ × Option Server) :
    (selectBestAux acc l).1 ≤ acc.1
    ∧ ∀ p s, (p, s) ∈ l → s.canHandleRequest = true → (selectBestAux acc l).1 ≤ p := by
  induction l generalizing acc with
  | nil => exact ⟨le_refl _, by simp⟩
  | cons hd rest ih =>
    obtain ⟨p, s⟩ := hd
    simp only [selectBestAux]
    set acc' := if p < acc.1 ∧ s.canHandleRequest then (p, some s) else acc with hacc'
    have hle : acc'.1 ≤ acc.1 := by
      rw [hacc']
      split_ifs with hc
      · exact le_of_lt hc.1
      · exact le_refl _
    have h := ih acc'
    refine ⟨le_trans h.1 hle, ?_⟩
    intro q t hmem hch
    rcases List.mem_cons.mp hmem with heq | hrest
    · rw [Prod.mk.injEq] at heq
      obtain ⟨rfl, rfl⟩ := heq
      by_cases hlt : q < acc.1
      · have : acc' = (q, some t) := by
          rw [hacc', if_pos ⟨hlt, by simp [hch]⟩]
        exact this ▸ h.1
      · have := le_trans h.1 hle
        exact le_trans this (le_of_not_lt hlt)
    · exact h.2 q t hrest hch

/-- Selection-loop cases: the result is either the untouched accumulator
or an admissible scanned pair together with its score. -/
theorem selectBestAux_cases (l : List (ℚ × Server)) (acc : ℚ × Option Server) :
    selectBestAux acc l = acc
    ∨ ∃ p s, (p, s) ∈ l ∧ selectBestAux acc l = (p, some s)
        ∧ s.canHandleRequest = true := by
  induction l generalizing acc with
  | nil => exact Or.inl rfl
  | cons hd rest ih =>
    obtain ⟨p, s⟩ := hd
    simp only [selectBestAux]
    rcases ih (if p < acc.1 ∧ s.canHandleRequest then (p, some s) else acc) with h | h
    · rw [h]
      split_ifs with hc
      · exact Or.inr ⟨p, s, List.mem_cons_self _ _, rfl, by
          have := hc.2
          simpa using this⟩
      · exact Or.inl rfl
    · obtain ⟨q, t, hmem, heq, hch⟩ := h
      exact Or.inr ⟨q, t, List.mem_cons_of_mem _ hmem, heq, hch⟩

/-- When no scanned pair is admissible the loop returns its accumulator
unchanged. -/
theorem selectBestAux_none (l : List (ℚ × Server)) (acc : ℚ × Option Server)
    (h : ∀ p s, (p, s) ∈ l → s.canHandleRequest = false) :
    selectBestAux acc l = acc := by
  induction l generalizing acc with
  | nil => rfl
  | cons hd rest ih =>
    obtain ⟨p, s⟩ := hd
    have hch : s.canHandleRequest = false := h p s (List.mem_cons_self _ _)
    simp only [selectBestAux, hch]
    rw [if_neg (by simp [hch])]
    exact ih acc fun q t hmem => h q t (List.mem_cons_of_mem _ hmem)

/-- Pairing lemma: a member of the right list of an equal-length zip has a
partner on the left. -/
theorem mem_zip_right {α β : Type} (l₁ : List α) (l₂ : List β) (b : β)
    (hlen : l₁.length = l₂.length) (hb : b ∈ l₂) :
    ∃ a, (a, b) ∈ l₁.zip l₂ := by
  induction l₂ generalizing l₁ with
  | nil => cases hb
  | cons x xs ih =>
    rcases l₁ with _ | ⟨y, ys⟩
    · exact absurd hlen (by simp)
    · rcases List.mem_cons.mp hb with rfl | hxs
      · exact ⟨y, List.mem_cons_self _ _⟩
      · obtain ⟨a, ha⟩ := ih ys (by simpa using hlen) hxs
        exact ⟨a, List.mem_cons_of_mem _ ha⟩

/-- Characterisation of `selectBest`: with every score strictly below the
`math.MaxFloat32` sentinel, it returns an admissible candidate of minimal
score when one exists and `none` otherwise. -/
theorem selectBest_spec (servers : List Server) (preds : List ℚ)
    (hlen : preds.length = servers.length)
    (hbound : ∀ p ∈ preds, p < maxFloat32) :
    ((∃ s ∈ servers, s.canHandleRequest = true) →
      ∃ p s, (p, s) ∈ preds.zip servers ∧ s.canHandleRequest = true
        ∧ selectBest servers preds = some s
        ∧ ∀ q t, (q, t) ∈ preds.zip servers → t.canHandleRequest = true → p ≤ q)
    ∧ ((∀ s ∈ servers, s.canHandleRequest = false) →
        selectBest servers preds = none) := by
  constructor
  · rintro ⟨s, hs, hch⟩
    obtain ⟨p0, hp0⟩ := mem_zip_right preds servers s hlen hs
    rcases selectBestAux_cases (preds.zip servers) (maxFloat32, none) with h | h
    · exfalso
      have hle := (selectBestAux_le (preds.zip servers) (maxFloat32, none)).2 p0 s hp0 hch
      rw [h] at hle
      have hp0preds : p0 ∈ preds := (List.of_mem_zip hp0).1
      exact absurd (lt_of_le_of_lt hle (hbound p0 hp0preds)) (lt_irrefl _)
    · obtain ⟨p, t, hmem, heq, hch'⟩ := h
      refine ⟨p, t, hmem, hch', ?_, ?_⟩
      · simp only [selectBest, heq]
      · intro q u hqu hchu
        have := (selectBestAux_le (preds.zip servers) (maxFloat32, none)).2 q u hqu hchu
        rw [heq] at this
        exact this
  · intro hnone
    have h : ∀ p s, (p, s) ∈ preds.zip servers → s.canHandleRequest = false :=
      fun p s hmem => hnone s (List.of_mem_zip hmem).2
    simp only [selectBest, selectBestAux_none (preds.zip servers) _ h]

/-- C3: for a candidate list and a score vector of matching length (all
scores finite, below the `MaxFloat32` sentinel), the predictive strategy
— whether the vector came from the scorer call or from a valid cache hit
— returns an admissible candidate of minimal score when the admission
rule `in_flight < 2 · capacity` admits anyone, and the fallback
strategy's choice when it admits no one. -/
theorem C3_argmin_admission (servers : List Server) (preds : List ℚ)
    (cb : CircuitBreaker) (now : ℕ) (fallback : List Server → Option Server)
    (scorer : Except Unit (List ℚ)) (_hne : servers ≠ [])
    (hopen : cb.isOpenAt now = false) (hlen : preds.length = servers.length)
    (hbound : ∀ p ∈ preds, p < maxFloat32) :
    ((∃ s ∈ servers, s.canHandleRequest = true) →
      ∃ p s, (p, s) ∈ preds.zip servers ∧ s.canHandleRequest = true
        ∧ (∀ q t, (q, t) ∈ preds.zip servers → t.canHandleRequest = true → p ≤ q)
        ∧ (mlSelect cb now none (.ok preds) servers fallback).1.choice = some s
        ∧ (mlSelect cb now (some preds) scorer servers fallback).1.choice = some s)
    ∧ ((∀ s ∈ servers, s.canHandleRequest = false) →
        (mlSelect cb now none (.ok preds) servers fallback).1.choice = fallback servers
        ∧ (mlSelect cb now (some preds) scorer servers fallback).1.choice
            = fallback servers) := by
  have hspec := selectBest_spec servers preds hlen hbound
  constructor
  · intro hadm
    obtain ⟨p, s, hmem, hch, hbest, hmin⟩ := hspec.1 hadm
    refine ⟨p, s, hmem, hch, hmin, ?_, ?_⟩
    · simp [mlSelect, hopen, mlScorerPath, hlen, hbest]
    · simp [mlSelect, hopen, hlen, hbest]
  · intro hnone
    have hb := hspec.2 hnone
    constructor
    · simp [mlSelect, hopen, mlScorerPath, hlen, hb]
    · rcases scorer with e | preds2
      · simp [mlSelect, hopen, hlen, hb, mlScorerPath]
      · by_cases hlen2 : preds2.length = servers.length
        · have hb2 : selectBest servers preds2 = none := by
            have h2 : ∀ p s, (p, s) ∈ preds2.zip servers → s.canHandleRequest = false :=
              fun p s hmem => hnone s (List.of_mem_zip hmem).2
            simp only [selectBest, selectBestAux_none (preds2.zip servers) _ h2]
          simp [mlSelect, hopen, hlen, hb, mlScorerPath, hlen2, hb2]
        · simp [mlSelect, hopen, hlen, hb, mlScorerPath, hlen2]

/-- C3 witness: two admissible candidates with scores 0.9 and 0.1; the
strategy must pick the second (lower score) on both paths. -/
theorem C3_argmin_admission_witness :
    (mlSelect .init 0 none (.ok [(9 : ℚ) / 10, (1 : ℚ) / 10])
        [⟨1, "http://server1", true, 1, 0, 1, 0, 0, 0, 0⟩,
         ⟨2, "http://server2", true, 1, 0, 1, 0, 0, 0, 0⟩]
        List.head?).1.choice
      = some ⟨2, "http://server2", true, 1, 0, 1, 0, 0, 0, 0⟩ := by
  obtain ⟨p, s, hmem, hch, hmin, hscorer, hcache⟩ :=
    (C3_argmin_admission
      [⟨1, "http://server1", true, 1, 0, 1, 0, 0, 0, 0⟩,
       ⟨2, "http://server2", true, 1, 0, 1, 0, 0, 0, 0⟩]
      [(9 : ℚ) / 10, (1 : ℚ) / 10] .init 0 List.head? (.ok [])
      (by decide) (by decide) (by decide)
      (by
        intro p hp
        simp only [List.mem_cons, List.not_mem_nil, or_false] at hp
        rcases hp with rfl | rfl <;> norm_num [maxFloat32])).1
      ⟨⟨1, "http://server1", true, 1, 0, 1, 0, 0, 0, 0⟩, by decide, by decide⟩
  have : s = ⟨2, "http://server2", true, 1, 0, 1, 0, 0, 0, 0⟩ := by
    simp only [List.zip, List.zipWith, List.mem_cons, List.not_mem_nil, or_false] at hmem
    rcases hmem with h | h
    · exfalso
      have := hmin ((1 : ℚ) / 10) ⟨2, "http://server2", true, 1, 0, 1, 0, 0, 0, 0⟩
        (by simp [List.zip, List.zipWith]) (by decide)
      rw [Prod.mk.injEq] at h
      obtain ⟨rfl, rfl⟩ := h
      norm_num at this
    · rw [Prod.mk.injEq] at h
      exact h.2
  rw [this] at hscorer
  exact hscorer

/-- Running the WRR on an empty candidate slice produces nothing. -/
theorem wrrRun_nil (cw : String → Int) (n : ℕ) : wrrRun cw [] n = ([], cw) := by
  induction n with
  | zero => rfl
  | succ m _ => rfl

/-- Decomposition of a WRR run: the first `m` choices followed by the run
continued from the reached state. -/
theorem wrrRun_add (servers : List String) (n : ℕ) :
    ∀ (m : ℕ) (cw : String → Int),
      wrrRun cw servers (m + n)
        = ((wrrRun cw servers m).1
            ++ (wrrRun (wrrRun cw servers m).2 servers n).1,
           (wrrRun (wrrRun cw servers m).2 servers n).2) := by
  intro m
  induction m with
  | zero =>
    intro cw
    simp [wrrRun]
  | succ k ih =>
    intro cw
    rcases servers with _ | ⟨s0, rest⟩
    · simp [wrrRun_nil]
    · have hstep : k + 1 + n = (k + n) + 1 := by omega
      rw [hstep]
      simp only [wrrRun, wrrStep]
      rw [ih]
      simp [wrrRun, wrrStep]

/-- Congruence of the max-scan under pointwise agreement on the candidate
slice. -/
theorem wrrPickMax_congr (l : List String) (cw cw' : String → Int)
    (hagree : ∀ s ∈ l, cw s = cw' s) :
    ∀ (rest : List String) (sel : String), sel ∈ l → (∀ r ∈ rest, r ∈ l) →
      wrrPickMax cw sel rest = wrrPickMax cw' sel rest := by
  intro rest
  induction rest with
  | nil => intro sel _ _; rfl
  | cons r rs ih =>
    intro sel hsel hsub
    have hr : r ∈ l := hsub r (List.mem_cons_self _ _)
    simp only [wrrPickMax, List.foldl_cons]
    rw [hagree r hr, hagree sel hsel]
    have hnext : (if cw' r > cw' sel then r else sel) ∈ l := by
      split_ifs <;> assumption
    exact ih (if cw' r > cw' sel then r else sel) hnext
      (fun q hq => hsub q (List.mem_cons_of_mem _ hq))

/-- Congruence of one WRR step under pointwise agreement on the candidate
slice: the same server is chosen and the new states again agree. -/
theorem wrrStep_congr (s0 : String) (rest : List String)
    (cw cw' : String → Int) (hagree : ∀ s ∈ s0 :: rest, cw s = cw' s) :
    ∃ sel cwa cwb, wrrStep cw (s0 :: rest) = some (sel, cwa)
      ∧ wrrStep cw' (s0 :: rest) = some (sel, cwb)
      ∧ sel ∈ s0 :: rest
      ∧ ∀ s ∈ s0 :: rest, cwa s = cwb s := by
  have hagree1 : ∀ s ∈ s0 :: rest, wrrAddWeights cw s = wrrAddWeights cw' s := by
    intro s hs
    simp only [wrrAddWeights, hagree s hs]
  have hpick : wrrPickMax (wrrAddWeights cw) s0 rest
      = wrrPickMax (wrrAddWeights cw') s0 rest :=
    wrrPickMax_congr (s0 :: rest) _ _ hagree1 rest s0
      (List.mem_cons_self _ _) (fun r hr => List.mem_cons_of_mem _ hr)
  have hselmem : wrrPickMax (wrrAddWeights cw') s0 rest ∈ s0 :: rest := by
    have : ∀ (rs : List String) (sel : String), sel ∈ s0 :: rest →
        (∀ r ∈ rs, r ∈ s0 :: rest) →
        wrrPickMax (wrrAddWeights cw') sel rs ∈ s0 :: rest := by
      intro rs
      induction rs with
      | nil => intro sel hsel _; exact hsel
      | cons r rs' ih =>
        intro sel hsel hsub
        simp only [wrrPickMax, List.foldl_cons]
        have hnext : (if wrrAddWeights cw' r > wrrAddWeights cw' sel then r else sel)
            ∈ s0 :: rest := by
          split_ifs
          · exact hsub r (List.mem_cons_self _ _)
          · exact hsel
        exact ih _ hnext (fun q hq => hsub q (List.mem_cons_of_mem _ hq))
    exact this rest s0 (List.mem_cons_self _ _) (fun r hr => List.mem_cons_of_mem _ hr)
  refine ⟨wrrPickMax (wrrAddWeights cw') s0 rest,
    updateCW (wrrAddWeights cw) (wrrPickMax (wrrAddWeights cw') s0 rest)
      (wrrAddWeights cw (wrrPickMax (wrrAddWeights cw') s0 rest) - sumWeights wrrTable),
    updateCW (wrrAddWeights cw') (wrrPickMax (wrrAddWeights cw') s0 rest)
      (wrrAddWeights cw' (wrrPickMax (wrrAddWeights cw') s0 rest) - sumWeights wrrTable),
    ?_, rfl, hselmem, ?_⟩
  · simp only [wrrStep]
    rw [hpick]
  · intro s hs
    simp only [updateCW]
    split_ifs with hsel
    · rw [hagree1 _ hselmem]
    · exact hagree1 s hs

/-- Congruence of a WRR run under pointwise agreement on the candidate
slice. -/
theorem wrrRun_congr (n : ℕ) :
    ∀ (l : List String) (cw cw' : String → Int), (∀ s ∈ l, cw s = cw' s) →
      (wrrRun cw l n).1 = (wrrRun cw' l n).1
      ∧ ∀ s ∈ l, (wrrRun cw l n).2 s = (wrrRun cw' l n).2 s := by
  induction n with
  | zero => intro l cw cw' hagree; exact ⟨rfl, hagree⟩
  | succ m ih =>
    intro l cw cw' hagree
    rcases l with _ | ⟨s0, rest⟩
    · exact ⟨rfl, by simp⟩
    · obtain ⟨sel, cwa, cwb, ha, hb, _, hab⟩ := wrrStep_congr s0 rest cw cw' hagree
      have hrec := ih (s0 :: rest) cwa cwb hab
      constructor
      · simp only [wrrRun, ha, hb]
        rw [hrec.1]
      · intro s hs
        simp only [wrrRun, ha, hb]
        exact hrec.2 s hs

/-- After six selections from the initial empty map on the three table
candidates, the current weights are back to zero on every candidate. -/
theorem wrr_state6 :
    ∀ s ∈ wrrCandidates, (wrrRun (fun _ => 0) wrrCandidates 6).2 s = 0 := by
  intro s hs
  simp only [wrrCandidates, List.mem_cons, List.not_mem_nil, or_false] at hs
  rcases hs with rfl | rfl | rfl <;> decide

/-- Periodicity of the WRR choice sequence: six more selections prepend
one full period. -/
theorem wrrSeq_add6 (n : ℕ) : wrrSeq (6 + n) = wrrSeq 6 ++ wrrSeq n := by
  have hadd := wrrRun_add wrrCandidates n 6 (fun _ => 0)
  have hcongr := wrrRun_congr n wrrCandidates
    ((wrrRun (fun _ => 0) wrrCandidates 6).2) (fun _ => 0) wrr_state6
  simp only [wrrSeq]
  rw [hadd]
  simp only []
  rw [hcongr.1]

/-- Bound transfer along one period, given the per-period count. -/
theorem wrr_bound_aux (x : String) (w : Int)
    (hblock : (((wrrSeq 6).count x : ℤ)) = w)
    (hbase : ∀ m < 6, |6 * (((wrrSeq m).count x : ℤ)) - m * w| ≤ 6) :
    ∀ n, |6 * (((wrrSeq n).count x : ℤ)) - n * w| ≤ 6 := by
  intro n
  induction n using Nat.strong_induction_on with
  | _ n ih =>
    rcases lt_or_ge n 6 with h6 | h6
    · exact hbase n h6
    · obtain ⟨m, rfl⟩ : ∃ m, n = 6 + m := ⟨n - 6, by omega⟩
      rw [wrrSeq_add6 m, List.count_append]
      have heq : 6 * (((wrrSeq 6).count x + (wrrSeq m).count x : ℕ) : ℤ)
          - ((6 + m : ℕ) : ℤ) * w
          = 6 * (((wrrSeq m).count x : ℤ)) - m * w := by
        push_cast
        rw [hblock]
        ring
      rw [heq]
      exact ih m (by omega)

/-- C7 (counterexample).  The claim states that with weights 3/1/2 the
strategy produces the textbook sequence A A B A C C A B A C.  The code's
first ten selections on the three table candidates are
A C A B C A A C A B (A = server1, B = server2, C = server3), which
differs already at the second selection. -/
theorem C7_counterexample :
    wrrSeq 10
      = ["http://server1", "http://server3", "http://server1", "http://server2",
          "http://server3", "http://server1", "http://server1", "http://server3",
          "http://server1", "http://server2"]
    ∧ wrrSeq 10
      ≠ ["http://server1", "http://server1", "http://server2", "http://server1",
          "http://server3", "http://server3", "http://server1", "http://server2",
          "http://server1", "http://server3"] := by
  exact ⟨by decide, by decide⟩

/-- C7 (amended).  The strategy is smooth weighted round-robin over the
hard-coded weight table server1 ↦ 3, server2 ↦ 1, server3 ↦ 2 (each step
adds the table weight to every table entry's current weight, picks the
candidate with the strictly highest current weight, and subtracts the
total weight 6 from the winner).  On the candidate list
[server1, server2, server3] the choice sequence is periodic with period
A C A B C A, so the first N selections pick each backend
(N · w_i / 6) ± 1 times; the textbook order claimed in the spec is not
produced. -/
theorem C7_smooth_wrr_distribution (x : String) (w : Int)
    (hxw : (x, w) ∈ wrrTable) (n : ℕ) :
    wrrSeq (n + 6) = wrrSeq 6 ++ wrrSeq n
    ∧ |6 * (((wrrSeq n).count x : ℤ)) - n * w| ≤ 6 := by
  constructor
  · rw [Nat.add_comm n 6]
    exact wrrSeq_add6 n
  · simp only [wrrTable, List.mem_cons, List.not_mem_nil, or_false,
      Prod.mk.injEq] at hxw
    rcases hxw with ⟨rfl, rfl⟩ | ⟨rfl, rfl⟩ | ⟨rfl, rfl⟩
    · exact wrr_bound_aux _ _ (by decide) (by decide) n
    · exact wrr_bound_aux _ _ (by decide) (by decide) n
    · exact wrr_bound_aux _ _ (by decide) (by decide) n

/-- C7 witness: server1 (weight 3) over the first five selections. -/
theorem C7_smooth_wrr_distribution_witness :
    wrrSeq (5 + 6) = wrrSeq 6 ++ wrrSeq 5
    ∧ |6 * (((wrrSeq 5).count "http://server1" : ℤ)) - 5 * 3| ≤ 6 :=
  C7_smooth_wrr_distribution "http://server1" 3 (by decide) 5

/-- A selection against an open breaker (within cool-down) returns the
fallback's choice without calling the scorer and leaves the breaker
untouched. -/
theorem mlSelect_open (cb : CircuitBreaker) (now : ℕ)
    (cached : Option (List ℚ)) (scorer : Except Unit (List ℚ))
    (servers : List Server) (fallback : List Server → Option Server)
    (h : cb.isOpenAt now = true) :
    mlSelect cb now cached scorer servers fallback
      = (⟨fallback servers, false, none, none⟩, cb) := by
  simp [mlSelect, h]

/-- A scorer-path execution that records a failure leaves the breaker
open with the current timestamp. -/
theorem mlScorerPath_failure_state (cb : CircuitBreaker) (now : ℕ)
    (scorer : Except Unit (List ℚ)) (servers : List Server)
    (fallback : List Server → Option Server)
    (h : (mlScorerPath cb now scorer servers fallback).1.breakerEvent = some false) :
    (mlScorerPath cb now scorer servers fallback).2 = ⟨true, now⟩ := by
  rcases scorer with e | preds
  · rfl
  · by_cases hlen : preds.length ≠ servers.length
    · simp [mlScorerPath, hlen, CircuitBreaker.recordFailure]
    · rcases hb : selectBest servers preds with _ | s <;>
        simp [mlScorerPath, hlen, hb] at h

/-- Any selection that records a breaker failure leaves the breaker open
with the current timestamp. -/
theorem mlSelect_failure_state (cb : CircuitBreaker) (now : ℕ)
    (cached : Option (List ℚ)) (scorer : Except Unit (List ℚ))
    (servers : List Server) (fallback : List Server → Option Server)
    (h : (mlSelect cb now cached scorer servers fallback).1.breakerEvent = some false) :
    (mlSelect cb now cached scorer servers fallback).2 = ⟨true, now⟩ := by
  by_cases hopen : cb.isOpenAt now
  · rw [mlSelect_open cb now cached scorer servers fallback hopen] at h
    exact absurd h (by simp)
  · rcases cached with _ | preds
    · rw [show mlSelect cb now none scorer servers fallback
          = mlScorerPath cb now scorer servers fallback from by
            simp [mlSelect, hopen]]
      rw [show mlSelect cb now none scorer servers fallback
          = mlScorerPath cb now scorer servers fallback from by
            simp [mlSelect, hopen]] at h
      exact mlScorerPath_failure_state cb now scorer servers fallback h
    · by_cases hlen : preds.length = servers.length
      · rcases hb : selectBest servers preds with _ | s
        · rw [show mlSelect cb now (some preds) scorer servers fallback
              = mlScorerPath cb now scorer servers fallback from by
                simp [mlSelect, hopen, hlen, hb]]
          rw [show mlSelect cb now (some preds) scorer servers fallback
              = mlScorerPath cb now scorer servers fallback from by
                simp [mlSelect, hopen, hlen, hb]] at h
          exact mlScorerPath_failure_state cb now scorer servers fallback h
        · simp [mlSelect, hopen, hlen, hb] at h
      · rw [show mlSelect cb now (some preds) scorer servers fallback
            = mlScorerPath cb now scorer servers fallback from by
              simp [mlSelect, hopen, hlen]]
        rw [show mlSelect cb now (some preds) scorer servers fallback
            = mlScorerPath cb now scorer servers fallback from by
              simp [mlSelect, hopen, hlen]] at h
        exact mlScorerPath_failure_state cb now scorer servers fallback h

/-- Any selection that records a breaker success leaves the breaker
closed: a single successful scorer call closes it, with no half-open
counting. -/
theorem mlSelect_success_state (cb : CircuitBreaker) (now : ℕ)
    (cached : Option (List ℚ)) (scorer : Except Unit (List ℚ))
    (servers : List Server) (fallback : List Server → Option Server)
    (h : (mlSelect cb now cached scorer servers fallback).1.breakerEvent = some true) :
    ((mlSelect cb now cached scorer servers fallback).2).isOpen = false := by
  have hpath : ∀ sc : Except Unit (List ℚ),
      (mlScorerPath cb now sc servers fallback).1.breakerEvent = some true →
      ((mlScorerPath cb now sc servers fallback).2).isOpen = false := by
    intro sc hsc
    rcases sc with e | preds
    · exact absurd hsc (by simp [mlScorerPath])
    · by_cases hlen : preds.length ≠ servers.length
      · simp [mlScorerPath, hlen] at hsc
      · rcases hb : selectBest servers preds with _ | s <;>
          simp [mlScorerPath, hlen, hb, CircuitBreaker.recordSuccess]
  by_cases hopen : cb.isOpenAt now
  · rw [mlSelect_open cb now cached scorer servers fallback hopen] at h
    exact absurd h (by simp)
  · rcases cached with _ | preds
    · have he : mlSelect cb now none scorer servers fallback
          = mlScorerPath cb now scorer servers fallback := by
        simp [mlSelect, hopen]
      rw [he] at h ⊢
      exact hpath scorer h
    · by_cases hlen : preds.length = servers.length
      · rcases hb : selectBest servers preds with _ | s
        · have he : mlSelect cb now (some preds) scorer servers fallback
              = mlScorerPath cb now scorer servers fallback := by
            simp [mlSelect, hopen, hlen, hb]
          rw [he] at h ⊢
          exact hpath scorer h
        · simp [mlSelect, hopen, hlen, hb] at h
      · have he : mlSelect cb now (some preds) scorer servers fallback
            = mlScorerPath cb now scorer servers fallback := by
          simp [mlSelect, hopen, hlen]
        rw [he] at h ⊢
        exact hpath scorer h

/-- Breaker-state recursion: one more processed event folds one more
`mlSelect` step. -/
theorem cbAt_succ (servers : List Server) (fallback : List Server → Option Server)
    (cb0 : CircuitBreaker) (events : List SelEvent) (k : ℕ) (e : SelEvent)
    (hk : events[k]? = some e) :
    cbAt servers fallback cb0 events (k + 1)
      = (mlSelect (cbAt servers fallback cb0 events k) e.now e.cached e.scorer
          servers fallback).2 := by
  simp only [cbAt, List.take_succ, hk, Option.toList_some, List.foldl_append,
    List.foldl_cons, List.foldl_nil]

/-- Breaker-state recursion past the end of the trace: nothing changes. -/
theorem cbAt_succ_none (servers : List Server)
    (fallback : List Server → Option Server) (cb0 : CircuitBreaker)
    (events : List SelEvent) (k : ℕ) (hk : events[k]? = none) :
    cbAt servers fallback cb0 events (k + 1)
      = cbAt servers fallback cb0 events k := by
  simp only [cbAt, List.take_succ, hk, Option.toList_none, List.append_nil]

/-- While every processed event falls inside the 30-second cool-down of a
stamped failure, the breaker stays open with the same stamp. -/
theorem cbAt_frozen (servers : List Server)
    (fallback : List Server → Option Server) (events : List SelEvent) (t : ℕ) :
    ∀ (d k : ℕ), cbAt servers fallback .init events k = ⟨true, t⟩ →
      (∀ m e, k ≤ m → m < k + d → events[m]? = some e → e.now < t + 30) →
      cbAt servers fallback .init events (k + d) = ⟨true, t⟩ := by
  intro d
  induction d with
  | zero => intro k hk _; exact hk
  | succ c ih =>
    intro k hk hin
    have hmid : cbAt servers fallback .init events (k + c) = ⟨true, t⟩ :=
      ih k hk (fun m e hm1 hm2 he => hin m e hm1 (by omega) he)
    rcases he : events[k + c]? with _ | e
    · rw [show k + (c + 1) = (k + c) + 1 from by omega,
        cbAt_succ_none servers fallback .init events (k + c) he]
      exact hmid
    · rw [show k + (c + 1) = (k + c) + 1 from by omega,
        cbAt_succ servers fallback .init events (k + c) e he, hmid]
      have hnow : e.now < t + 30 := hin (k + c) e (by omega) (by omega) he
      have hopen : CircuitBreaker.isOpenAt ⟨true, t⟩ e.now = true := by
        simp only [CircuitBreaker.isOpenAt, Bool.true_and, decide_eq_true_eq]
        omega
      rw [mlSelect_open _ _ _ _ _ _ hopen]

/-- Timestamps along a monotone trace are monotone at the index level. -/
theorem selEvent_now_mono (events : List SelEvent)
    (hmono : List.Chain' (fun a b => a.now ≤ b.now) events)
    (m j : ℕ) (em ej : SelEvent) (hmj : m < j)
    (hm : events[m]? = some em) (hj : events[j]? = some ej) :
    em.now ≤ ej.now := by
  haveI : IsTrans SelEvent (fun a b => a.now ≤ b.now) :=
    ⟨fun _ _ _ hab hbc => le_trans hab hbc⟩
  have hpair : events.Pairwise (fun a b => a.now ≤ b.now) :=
    List.chain'_iff_pairwise.mp hmono
  rw [List.getElem?_eq_some] at hm hj
  obtain ⟨hm1, hm2⟩ := hm
  obtain ⟨hj1, hj2⟩ := hj
  have := List.pairwise_iff_getElem.mp hpair m j hm1 hj1 hmj
  rw [hm2, hj2] at this
  exact this

/-- C2: along any monotone-time trace of predictive selections starting
from the zero-valued breaker, (a) a selection that records a scorer
failure leaves the breaker open stamped with that selection's time, (b) a
selection that records a scorer success leaves the breaker closed (one
success suffices, no half-open counting), and (c) after a failure at
selection `i`, every later selection `j` within the 30-second cool-down
calls neither the scorer nor the cache-and-score path and returns the
fallback strategy's choice. -/
theorem C2_circuit_breaker (servers : List Server)
    (fallback : List Server → Option Server) (events : List SelEvent)
    (hmono : List.Chain' (fun a b => a.now ≤ b.now) events)
    (i j : ℕ) (ei ej : SelEvent)
    (hi : events[i]? = some ei) (hj : events[j]? = some ej) (hij : i < j) :
    ((mlRunStep servers fallback events i ei).1.breakerEvent = some false →
        (mlRunStep servers fallback events i ei).2 = ⟨true, ei.now⟩)
    ∧ ((mlRunStep servers fallback events i ei).1.breakerEvent = some true →
        ((mlRunStep servers fallback events i ei).2).isOpen = false)
    ∧ ((mlRunStep servers fallback events i ei).1.breakerEvent = some false →
        ej.now < ei.now + 30 →
        (mlRunStep servers fallback events j ej).1.scorerCalled = false
        ∧ (mlRunStep servers fallback events j ej).1.choice = fallback servers) := by
  refine ⟨?_, ?_, ?_⟩
  · exact mlSelect_failure_state _ _ _ _ _ _
  · exact mlSelect_success_state _ _ _ _ _ _
  · intro hfail hlt
    have h1 : cbAt servers fallback .init events (i + 1) = ⟨true, ei.now⟩ := by
      rw [cbAt_succ servers fallback .init events i ei hi]
      exact mlSelect_failure_state _ _ _ _ _ _ hfail
    have hin : ∀ m e, i + 1 ≤ m → m < (i + 1) + (j - (i + 1)) →
        events[m]? = some e → e.now < ei.now + 30 := by
      intro m e hm1 hm2 he
      have hmj : m < j := by omega
      have := selEvent_now_mono events hmono m j e ej hmj he hj
      omega
    have h2 : cbAt servers fallback .init events j = ⟨true, ei.now⟩ := by
      have := cbAt_frozen servers fallback events ei.now (j - (i + 1)) (i + 1) h1 hin
      rwa [show (i + 1) + (j - (i + 1)) = j from by omega] at this
    have hopen : CircuitBreaker.isOpenAt ⟨true, ei.now⟩ ej.now = true := by
      simp only [CircuitBreaker.isOpenAt, Bool.true_and, decide_eq_true_eq]
      omega
    unfold mlRunStep
    rw [h2, mlSelect_open _ _ _ _ _ _ hopen]
    exact ⟨rfl, rfl⟩

/-- C2 witness: a failing scorer at t = 0 followed by a selection at
t = 10, still inside the cool-down. -/
theorem C2_circuit_breaker_witness :
    (mlRunStep [⟨1, "http://server1", true, 1, 0, 1, 0, 0, 0, 0⟩] List.head?
        [⟨0, none, .error ()⟩, ⟨10, none, .ok [(1 : ℚ) / 2]⟩] 1
        ⟨10, none, .ok [(1 : ℚ) / 2]⟩).1.scorerCalled = false
    ∧ (mlRunStep [⟨1, "http://server1", true, 1, 0, 1, 0, 0, 0, 0⟩] List.head?
        [⟨0, none, .error ()⟩, ⟨10, none, .ok [(1 : ℚ) / 2]⟩] 1
        ⟨10, none, .ok [(1 : ℚ) / 2]⟩).1.choice
      = List.head? [⟨1, "http://server1", true, 1, 0, 1, 0, 0, 0, 0⟩] :=
  (C2_circuit_breaker [⟨1, "http://server1", true, 1, 0, 1, 0, 0, 0, 0⟩]
      List.head? [⟨0, none, .error ()⟩, ⟨10, none, .ok [(1 : ℚ) / 2]⟩]
      (by simp) 0 1 ⟨0, none, .error ()⟩ ⟨10, none, .ok [(1 : ℚ) / 2]⟩
      rfl rfl (by decide)).2.2 (by decide) (by decide)

end NeuraBalancer
